import Mathlib

/-!
Verification of the datreant.core aggregate collection engine against its
natural-language specification.

The embedding models:
* `treants.py` (present in the repository source): member identity,
  equality and ordering (`Treant.__eq__` / `Treant.__lt__`), and the
  generate/regenerate logic of `Treant.__init__` / `Treant._regenerate`.
* the collection engine (`collections.py` / the aggregation limbs), whose
  source file is absent from the repository snapshot; those operations are
  modelled from the specification, with behaviour pinned down by the
  repository's own test suite (`tests/test_collections.py`) where the two
  disagree.

Machine strings are Lean `String`s; the Python string order used by
`Treant.__lt__` is code-point lexicographic order, embedded here as an
executable comparison on the underlying character lists.
-/

namespace Datreant

/-- Scalar category values: integers, strings and booleans (the scalar
types exercised by the repository's tests). -/
inductive Value where
  | i : Int → Value
  | s : String → Value
  | b : Bool → Value
deriving DecidableEq

/-- Snapshot of one member (Treant or Group) as the collection engine sees
it: identity from `treants.py` (`name`, `uuid`), the variant discriminator,
the nested membership of a Group (as uuids, since Python Groups reference
their members through state files on disk, which permits cycles), and the
member's own persisted categories as an association list. -/
structure MemberRec where
  name : String
  uuid : String
  isGroup : Bool
  children : List String
  cats : List (String × Value)
deriving DecidableEq

/-- Python `<` on single characters: comparison of Unicode code points. -/
def charLtb (a b : Char) : Bool := decide (a < b)

/-- Python `<` on strings: code-point lexicographic comparison, embedded
structurally on the character lists. -/
def charsLtb : List Char → List Char → Bool
  | [], [] => false
  | [], _ :: _ => true
  | _ :: _, [] => false
  | a :: as, b :: bs =>
    if charLtb a b then true
    else if charLtb b a then false
    else charsLtb as bs

/-- Python string comparison `a < b`. -/
def strLtb (a b : String) : Bool := charsLtb a.data b.data

/-- Embeds `Treant.__eq__` (treants.py line 120): equality of the
concatenations `name + uuid`. -/
def memberEqb (a b : MemberRec) : Bool := (a.name ++ a.uuid) == (b.name ++ b.uuid)

/-- Embeds `Treant.__lt__` (treants.py line 126): Python `<` on the
concatenations `name + uuid`. -/
def memberLtb (a b : MemberRec) : Bool := strLtb (a.name ++ a.uuid) (b.name ++ b.uuid)

theorem charsLtb_cons_iff (a b : Char) (as bs : List Char) :
    charsLtb (a :: as) (b :: bs) = true ↔ a < b ∨ (a = b ∧ charsLtb as bs = true) := by
  simp only [charsLtb, charLtb]
  rcases lt_trichotomy a b with h | h | h
  · simp [h]
  · subst h
    simp [lt_irrefl]
  · simp [h, lt_asymm h, ne_of_gt h]

theorem charsLtb_irrefl : ∀ a : List Char, charsLtb a a = false
  | [] => rfl
  | a :: as => by
    have ih := charsLtb_irrefl as
    simp [charsLtb, charLtb, lt_irrefl, ih]

theorem charsLtb_trans : ∀ a b c : List Char, charsLtb a b = true → charsLtb b c = true →
    charsLtb a c = true
  | [], [], _, h, _ => by simp [charsLtb] at h
  | [], _ :: _, [], _, h => by simp [charsLtb] at h
  | [], _ :: _, _ :: _, _, _ => by simp [charsLtb]
  | _ :: _, [], _, h, _ => by simp [charsLtb] at h
  | _ :: _, _ :: _, [], _, h => by simp [charsLtb] at h
  | a :: as, b :: bs, c :: cs, h1, h2 => by
    rw [charsLtb_cons_iff] at h1 h2 ⊢
    rcases h1 with h1 | ⟨rfl, h1⟩
    · rcases h2 with h2 | ⟨rfl, h2⟩
      · exact Or.inl (lt_trans h1 h2)
      · exact Or.inl h1
    · rcases h2 with h2 | ⟨rfl, h2⟩
      · exact Or.inl h2
      · exact Or.inr ⟨rfl, charsLtb_trans as bs cs h1 h2⟩

theorem charsLtb_antisymm : ∀ a b : List Char, charsLtb a b = false → charsLtb b a = false →
    a = b
  | [], [], _, _ => rfl
  | [], _ :: _, h, _ => by simp [charsLtb] at h
  | _ :: _, [], _, h => by simp [charsLtb] at h
  | a :: as, b :: bs, h1, h2 => by
    simp only [charsLtb, charLtb] at h1 h2
    rcases lt_trichotomy a b with h | h | h
    · simp [h] at h1
    · subst h
      simp [lt_irrefl] at h1 h2
      rw [charsLtb_antisymm as bs h1 h2]
    · simp [h, lt_asymm h] at h2

theorem string_data_inj {a b : String} (h : a.data = b.data) : a = b := by
  cases a; cases b; simp_all

theorem strLtb_irrefl (a : String) : strLtb a a = false := charsLtb_irrefl a.data

theorem strLtb_trans {a b c : String} (h1 : strLtb a b = true) (h2 : strLtb b c = true) :
    strLtb a c = true := charsLtb_trans a.data b.data c.data h1 h2

theorem strLtb_antisymm {a b : String} (h1 : strLtb a b = false) (h2 : strLtb b a = false) :
    a = b := string_data_inj (charsLtb_antisymm a.data b.data h1 h2)

theorem strLtb_asymm {a b : String} (h : strLtb a b = true) : strLtb b a = false := by
  by_contra hc
  have h2 : strLtb b a = true := by
    cases hq : strLtb b a
    · exact absurd hq hc
    · rfl
  have := strLtb_trans h h2
  rw [strLtb_irrefl] at this
  exact Bool.false_ne_true this

theorem strLtb_total (a b : String) : strLtb a b = true ∨ strLtb a b = false ∧
    (strLtb b a = true ∨ strLtb b a = false ∧ a = b) := by
  cases h1 : strLtb a b
  · cases h2 : strLtb b a
    · exact Or.inr ⟨rfl, Or.inr ⟨rfl, strLtb_antisymm h1 h2⟩⟩
    · exact Or.inr ⟨rfl, Or.inl rfl⟩
  · exact Or.inl rfl

theorem append_inj_of_length_right {a b c d : String}
    (h : a ++ b = c ++ d) (hl : b.length = d.length) : a = c ∧ b = d := by
  have hdata : a.data ++ b.data = c.data ++ d.data := by
    rw [← String.data_append, ← String.data_append, h]
  have hlen : b.data.length = d.data.length := hl
  obtain ⟨h1, h2⟩ := List.append_inj' hdata hlen
  exact ⟨string_data_inj h1, string_data_inj h2⟩

/-- C7. The claim states that `a == b` holds iff both names and uuids
match componentwise. `Treant.__eq__` actually compares the concatenations
`a.name + a.uuid` and `b.name + b.uuid`, which identifies distinct
members whose concatenations coincide: this closed counterexample
exhibits two members that the code makes equal although their names (and
uuids) differ. -/
theorem c7_eq_concat_cex :
    memberEqb ⟨"ab", "c", false, [], []⟩ ⟨"a", "bc", false, [], []⟩ = true
    ∧ (MemberRec.name ⟨"ab", "c", false, [], []⟩ ≠
        MemberRec.name ⟨"a", "bc", false, [], []⟩) := by
  constructor
  · rfl
  · decide

/-- C7 (amended). `a == b` holds iff the concatenations `name ++ uuid`
coincide; this agrees with componentwise equality of names and uuids
exactly when the uuids have equal length (as real uuid4 strings do).
Ordering (`Treant.__lt__`) is Python string comparison of the same
concatenations, which is irreflexive, transitive and total relative to
the code's equality, hence a deterministic total order on members up to
`__eq__`. -/
theorem c7_eq_order (a b c : MemberRec) :
    (memberEqb a b = true ↔ a.name ++ a.uuid = b.name ++ b.uuid)
    ∧ (a.uuid.length = b.uuid.length →
        (memberEqb a b = true ↔ a.name = b.name ∧ a.uuid = b.uuid))
    ∧ (memberLtb a b = true ∨ memberEqb a b = true ∨ memberLtb b a = true)
    ∧ (memberLtb a b = true → memberLtb b c = true → memberLtb a c = true)
    ∧ (memberLtb a b = true → memberEqb a b = false) := by
  have heq : memberEqb a b = true ↔ a.name ++ a.uuid = b.name ++ b.uuid := by
    simp [memberEqb]
  refine ⟨heq, ?_, ?_, ?_, ?_⟩
  · intro hl
    rw [heq]
    constructor
    · intro h
      exact append_inj_of_length_right h hl
    · rintro ⟨h1, h2⟩
      rw [h1, h2]
  · rcases strLtb_total (a.name ++ a.uuid) (b.name ++ b.uuid) with h | ⟨h1, h | ⟨h2, h3⟩⟩
    · exact Or.inl h
    · exact Or.inr (Or.inr h)
    · exact Or.inr (Or.inl (heq.mpr h3))
  · exact fun h1 h2 => strLtb_trans h1 h2
  · intro h
    cases he : memberEqb a b
    · rfl
    · have := heq.mp he
      rw [memberLtb, this, strLtb_irrefl] at h
      exact absurd h (by simp)

/-- C7 witness: the amended theorem applied at concrete members with
equal-length uuids, discharging the hypotheses. -/
theorem c7_eq_order_witness :
    (memberEqb ⟨"lark", "u1", false, [], []⟩ ⟨"hark", "u1", false, [], []⟩ = true ↔
      ("lark" = "hark" ∧ "u1" = "u1"))
    ∧ (memberLtb ⟨"hark", "u1", false, [], []⟩ ⟨"lark", "u1", false, [], []⟩ = true →
        memberLtb ⟨"lark", "u1", false, [], []⟩ ⟨"mark", "u1", false, [], []⟩ = true →
        memberLtb ⟨"hark", "u1", false, [], []⟩ ⟨"mark", "u1", false, [], []⟩ = true) :=
  ⟨(c7_eq_order ⟨"lark", "u1", false, [], []⟩ ⟨"hark", "u1", false, [], []⟩
      ⟨"mark", "u1", false, [], []⟩).2.1 rfl,
   (c7_eq_order ⟨"hark", "u1", false, [], []⟩ ⟨"lark", "u1", false, [], []⟩
      ⟨"mark", "u1", false, [], []⟩).2.2.2.1⟩

/-- Errors surfaced by `Treant.__init__` / `Treant._regenerate`
(treants.py): `NoTreantsError`, `MultipleTreantsError`, and the re-raised
permission `OSError` from `makedirs` in `Treant._generate`. -/
inductive TreantError where
  | noTreants
  | multipleTreants
  | permissionDenied
deriving DecidableEq

/-- Result of loading or creating a Treant: the state file bound as the
backend, and whether the initial categories/tags seeding was applied
(`false` when the store write failed and was silently ignored). -/
structure Backend where
  statefile : String
  seeded : Bool
deriving DecidableEq

/-- Embeds `Treant._regenerate` (treants.py lines 175-218) over an
abstract filesystem view: `isDir` is `os.path.isdir(treant)`, `globbed`
the state files found by `filesystem.glob_treant`, `pathExists` is
`os.path.exists(treant)` for the direct state-file branch, and
`seedFails` says whether `self.categories.add` / `self.tags.add` raise
`OSError`/`IOError` (which the code catches and ignores). -/
def regenerate (isDir : Bool) (globbed : List String) (pathExists : Bool)
    (treantPath : String) (seedFails : Bool) : Except TreantError Backend :=
  if isDir then
    match globbed with
    | [sf] => .ok ⟨sf, !seedFails⟩
    | [] => .error .noTreants
    | _ => .error .multipleTreants
  else if pathExists then .ok ⟨treantPath, !seedFails⟩
  else .error .noTreants

/-- Embeds `Treant._generate` (treants.py lines 142-173): `mkdirOk` is
whether `makedirs` succeeds (a permission failure is re-raised as
`OSError(13)`); on success a fresh state file named from the fresh uuid
is created and seeding always runs. -/
def generate (mkdirOk : Bool) (treantPath freshUuid : String) :
    Except TreantError Backend :=
  if mkdirOk then .ok ⟨treantPath ++ "/Treant." ++ freshUuid ++ ".json", true⟩
  else .error .permissionDenied

/-- Embeds `Treant.__init__` (treants.py lines 76-82): with `new=True` it
generates; otherwise it regenerates, catching only `NoTreantsError` and
falling back to generating a brand-new Treant. -/
def treantInit (isNew : Bool) (isDir : Bool) (globbed : List String) (pathExists : Bool)
    (treantPath : String) (seedFails mkdirOk : Bool) (freshUuid : String) :
    Except TreantError Backend :=
  if isNew then generate mkdirOk treantPath freshUuid
  else
    match regenerate isDir globbed pathExists treantPath seedFails with
    | .error .noTreants => generate mkdirOk treantPath freshUuid
    | r => r

/-- C9. Regenerating from a bare directory raises `MultipleTreantsError`
when the glob finds two or more state files and `NoTreantsError` when it
finds none, while a store failure during the initial categories/tags
seeding of an existing member (directory branch or direct state-file
branch) is silently swallowed: the member still loads, merely unseeded. -/
theorem c9_regenerate_errors (pathExists : Bool) (globbed : List String) (tp sf : String) :
    (2 ≤ globbed.length →
      regenerate true globbed pathExists tp false = .error .multipleTreants)
    ∧ regenerate true [] pathExists tp false = .error .noTreants
    ∧ regenerate true [sf] pathExists tp true = .ok ⟨sf, false⟩
    ∧ (regenerate true [sf] pathExists tp true).isOk =
        (regenerate true [sf] pathExists tp false).isOk
    ∧ (regenerate false [] true tp true).isOk =
        (regenerate false [] true tp false).isOk := by
  refine ⟨?_, rfl, rfl, rfl, rfl⟩
  intro h
  rcases globbed with _ | ⟨a, rest⟩
  · simp at h
  · rcases rest with _ | ⟨b, rest⟩
    · simp at h
    · rfl

/-- C9 witness: the theorem applied at a concrete two-state-file glob
result, discharging the length hypothesis. -/
theorem c9_regenerate_errors_witness :
    regenerate true ["Treant.u1.json", "Treant.u2.json"] false "bork" false =
      .error .multipleTreants :=
  (c9_regenerate_errors false ["Treant.u1.json", "Treant.u2.json"] "bork" "sf").1
    (by decide)

/-- C10. Constructing a Treant with `new=False` at a path where no state
file is found (a directory with an empty glob, or a non-existent path)
never surfaces `NoTreantsError`: `__init__` catches it and generates a
brand-new Treant there, so whenever the directory can be made the
construction succeeds with a fresh state file named from the fresh uuid. -/
theorem c10_fresh_path (isDir pathExists seedFails mkdirOk : Bool)
    (globbed : List String) (tp fu : String)
    (hfresh : (isDir = true ∧ globbed = []) ∨ (isDir = false ∧ pathExists = false)) :
    treantInit false isDir globbed pathExists tp seedFails mkdirOk fu =
      generate mkdirOk tp fu
    ∧ treantInit false isDir globbed pathExists tp seedFails mkdirOk fu ≠
        .error .noTreants
    ∧ (mkdirOk = true →
        treantInit false isDir globbed pathExists tp seedFails mkdirOk fu =
          .ok ⟨tp ++ "/Treant." ++ fu ++ ".json", true⟩) := by
  have hgen : treantInit false isDir globbed pathExists tp seedFails mkdirOk fu =
      generate mkdirOk tp fu := by
    rcases hfresh with ⟨h1, h2⟩ | ⟨h1, h2⟩ <;> subst h1 <;> subst h2 <;>
      simp [treantInit, regenerate]
  refine ⟨hgen, ?_, ?_⟩
  · rw [hgen]
    cases mkdirOk <;> simp [generate]
  · intro hmk
    subst hmk
    rw [hgen]
    rfl

/-- C10 witness: the theorem applied at a concrete fresh path (not a
directory, nothing exists there) with a writable filesystem. -/
theorem c10_fresh_path_witness :
    treantInit false false [] false "sequoia" false true "u9" =
      .ok ⟨"sequoia" ++ "/Treant." ++ "u9" ++ ".json", true⟩ :=
  (c10_fresh_path false false false true [] "sequoia" "u9"
    (Or.inr ⟨rfl, rfl⟩)).2.2 rfl

/-- Modelled from the spec: per-member category lookup (`agglimbs.py` /
`collections.py` are absent from the repository snapshot). A member's
categories form a mapping from string keys to scalar values; lookup
returns the value, or the absent sentinel (`none`, Python `None`). -/
def catLookup (k : String) : List (String × Value) → Option Value
  | [] => none
  | (k', v) :: rest => if k' = k then some v else catLookup k rest

/-- Presence of a key on a member. -/
def hasKeyb (m : MemberRec) (k : String) : Bool := (catLookup k m.cats).isSome

/-- Modelled from the spec: the per-key value list of the Aggregated
Categories view — exactly `len(collection)` entries, one per member in
collection order, `none` where the member lacks the key. -/
def valueList (c : List MemberRec) (k : String) : List (Option Value) :=
  c.map (fun m => catLookup k m.cats)

/-- Modelled from the spec: the "any" scope — keys present on at least
one member (union of the members' key sets). -/
def anyKeys (c : List MemberRec) : List String :=
  ((c.map (fun m => m.cats.map Prod.fst)).flatten).dedup

/-- Modelled from the spec: the "all" scope — keys present (non-absent)
on every member currently in the Collection. -/
def allKeys (c : List MemberRec) : List String :=
  (anyKeys c).filter (fun k => c.all (fun m => hasKeyb m k))

/-- Modelled from the spec: `AggCategories.__len__` — the count of keys
common to every member, i.e. `len(self.all)`. -/
def catsLen (c : List MemberRec) : Nat := (allKeys c).length

/-- C3. A key is in the "all" scope iff it is an "any"-scope key whose
per-member value list contains no absent sentinel, and the base length of
the categories view is the number of "all" keys. -/
theorem c3_all_any (c : List MemberRec) (k : String) :
    (k ∈ allKeys c ↔ k ∈ anyKeys c ∧ ¬ none ∈ valueList c k)
    ∧ catsLen c = (allKeys c).length := by
  refine ⟨?_, rfl⟩
  rw [allKeys, List.mem_filter]
  constructor
  · rintro ⟨h1, h2⟩
    refine ⟨h1, ?_⟩
    rw [List.all_eq_true] at h2
    intro hmem
    rw [valueList, List.mem_map] at hmem
    obtain ⟨m, hm, hlook⟩ := hmem
    have hsome := h2 m hm
    rw [hasKeyb, hlook] at hsome
    simp at hsome
  · rintro ⟨h1, h2⟩
    refine ⟨h1, ?_⟩
    rw [List.all_eq_true]
    intro m hm
    rw [hasKeyb]
    cases hl : catLookup k m.cats
    · exact absurd (by rw [valueList, List.mem_map]; exact ⟨m, hm, hl⟩) h2
    · rfl

/-- Modelled from the spec: setting key `k` to value `v` on one member's
own categories — creates the key where absent, overwrites where present. -/
def setCat (k : String) (v : Value) : List (String × Value) → List (String × Value)
  | [] => [(k, v)]
  | (k', v') :: rest => if k' = k then (k, v) :: rest else (k', v') :: setCat k v rest

/-- Modelled from the spec: `categories[key] = scalar` — sets the key to
that scalar on every member of the Collection. -/
def setScalar (c : List MemberRec) (k : String) (v : Value) : List MemberRec :=
  c.map (fun m => { m with cats := setCat k v m.cats })

/-- Modelled from the spec: `categories[key] = [v1..vn]` with `n`
matching the collection size — sets each member's value positionally. -/
def setPositional (c : List MemberRec) (k : String) (vals : List Value) : List MemberRec :=
  (c.zip vals).map (fun p => { p.1 with cats := setCat k p.2 p.1.cats })

theorem catLookup_setCat (k : String) (v : Value) :
    ∀ cats : List (String × Value), catLookup k (setCat k v cats) = some v
  | [] => by simp [setCat, catLookup]
  | (k', v') :: rest => by
    by_cases h : k' = k
    · simp [setCat, h, catLookup]
    · simp only [setCat, if_neg h, catLookup, if_neg h]
      exact catLookup_setCat k v rest

/-- C5. After `categories[k] = v` (scalar) reading `categories[k]` gives a
list of length `len(C)` with every entry the scalar (the key is created
where missing); after `categories[k] = [v1..vn]` with `n = len(C)`,
member `i`'s own category value is `vi` and re-reading gives exactly
`[v1..vn]`. -/
theorem c5_setitem (c : List MemberRec) (k : String) (v : Value) (vals : List Value)
    (hlen : vals.length = c.length) :
    valueList (setScalar c k v) k = List.replicate c.length (some v)
    ∧ valueList (setPositional c k vals) k = vals.map some
    ∧ ∀ i, i < c.length →
        ∃ m v', (setPositional c k vals)[i]? = some m ∧ vals[i]? = some v'
          ∧ catLookup k m.cats = some v' := by
  have scalarAux : ∀ cc : List MemberRec,
      valueList (setScalar cc k v) k = List.replicate cc.length (some v) := by
    intro cc
    induction cc with
    | nil => rfl
    | cons m rest ih =>
      simp only [setScalar, valueList, List.map_cons, List.length_cons,
        List.replicate_succ] at ih ⊢
      rw [catLookup_setCat]
      exact congrArg _ ih
  have posAux : ∀ (cc : List MemberRec) (vv : List Value), vv.length = cc.length →
      valueList (setPositional cc k vv) k = vv.map some := by
    intro cc
    induction cc with
    | nil =>
      intro vv hv
      rw [List.length_nil, List.length_eq_zero] at hv
      subst hv
      rfl
    | cons m rest ih =>
      intro vv hv
      cases vv with
      | nil => exact absurd hv (by simp)
      | cons v' vrest =>
        simp only [setPositional, valueList, List.zip_cons_cons, List.map_cons]
        rw [catLookup_setCat]
        have := ih vrest (by simpa using hv)
        exact congrArg _ this
  refine ⟨scalarAux c, posAux c vals hlen, ?_⟩
  intro i hi
  induction c generalizing vals i with
  | nil => exact absurd hi (by simp)
  | cons m rest ih =>
    cases vals with
    | nil => exact absurd hlen (by simp)
    | cons v' vrest =>
      cases i with
      | zero =>
        refine ⟨{ m with cats := setCat k v' m.cats }, v', ?_, by simp,
          catLookup_setCat k v' _⟩
        simp [setPositional]
      | succ j =>
        have hlen' : vrest.length = rest.length := by
          simpa using hlen
        have hj : j < rest.length := by
          simpa using hi
        obtain ⟨m', v'', h1, h2, h3⟩ := ih vrest hlen' j hj
        refine ⟨m', v'', ?_, ?_, h3⟩
        · simpa [setPositional] using h1
        · simpa using h2

/-- C5 witness: the theorem applied at a concrete two-member collection
with a positional value list of matching length. -/
theorem c5_setitem_witness :
    valueList (setScalar [⟨"maple", "u1", false, [], []⟩,
        ⟨"sequoia", "u2", false, [], [("age", .i 42)]⟩] "age" (.s "old")) "age" =
      List.replicate 2 (some (.s "old"))
    ∧ valueList (setPositional [⟨"maple", "u1", false, [], []⟩,
        ⟨"sequoia", "u2", false, [], [("age", .i 42)]⟩] "nick" [.s "m", .s "s"]) "nick" =
      [.s "m", .s "s"].map some :=
  ⟨(c5_setitem [⟨"maple", "u1", false, [], []⟩,
      ⟨"sequoia", "u2", false, [], [("age", .i 42)]⟩] "age" (.s "old")
      [.s "m", .s "s"] rfl).1,
   (c5_setitem [⟨"maple", "u1", false, [], []⟩,
      ⟨"sequoia", "u2", false, [], [("age", .i 42)]⟩] "nick" (.s "old")
      [.s "m", .s "s"] rfl).2.1⟩

/-- Modelled from the spec: Bundle membership test by object — true when
some element equals the candidate under `Treant.__eq__`. -/
def memContains (c : List MemberRec) (m : MemberRec) : Bool :=
  c.any (fun x => memberEqb x m)

/-- Modelled from the spec: adding one Member to a Collection — appended
in order, silently skipped when an equal member (by `Treant.__eq__`) is
already present ("operates as an ordered set"). -/
def addMember (c : List MemberRec) (m : MemberRec) : List MemberRec :=
  if memContains c m then c else c ++ [m]

theorem memberEqb_refl (m : MemberRec) : memberEqb m m = true := by
  simp [memberEqb]

theorem memContains_addMember (c : List MemberRec) (m : MemberRec) :
    memContains (addMember c m) m = true := by
  rw [addMember]
  cases h : memContains c m
  · rw [if_neg (by simp), memContains, List.any_append]
    simp [memberEqb_refl]
  · rw [if_pos rfl]
    exact h

/-- C4. Adding the same member twice grows the Collection by at most one
and leaves the member present, and `add` preserves the invariant that no
two elements are equal under (name, uuid). -/
theorem c4_add_ordered_set (c : List MemberRec) (m : MemberRec) :
    (addMember (addMember c m) m).length ≤ c.length + 1
    ∧ memContains (addMember (addMember c m) m) m = true
    ∧ (List.Pairwise (fun a b => ¬(a.name = b.name ∧ a.uuid = b.uuid)) c →
        List.Pairwise (fun a b => ¬(a.name = b.name ∧ a.uuid = b.uuid)) (addMember c m)) := by
  have hsecond : addMember (addMember c m) m = addMember c m := by
    rw [addMember, if_pos (memContains_addMember c m)]
  refine ⟨?_, ?_, ?_⟩
  · rw [hsecond, addMember]
    cases h : memContains c m
    · rw [if_neg (by simp), List.length_append]
      simp
    · rw [if_pos rfl]
      exact Nat.le_succ _
  · rw [hsecond]
    exact memContains_addMember c m
  · intro hpw
    rw [addMember]
    cases h : memContains c m
    · rw [if_neg (by simp), List.pairwise_append]
      refine ⟨hpw, List.pairwise_singleton _ _, ?_⟩
      intro a ha b hb
      rw [List.mem_singleton] at hb
      rintro ⟨h1, h2⟩
      rw [hb] at h1 h2
      have heqb : memberEqb a m = true := by
        simp [memberEqb, h1, h2]
      have hcon : memContains c m = true := by
        rw [memContains, List.any_eq_true]
        exact ⟨a, ha, heqb⟩
      rw [h] at hcon
      exact Bool.false_ne_true hcon
    · rw [if_pos rfl]
      exact hpw

/-- C4 witness: the theorem applied at a concrete duplicate-free
collection, discharging the pairwise-distinct hypothesis. -/
theorem c4_add_ordered_set_witness :
    List.Pairwise (fun a b => ¬(a.name = b.name ∧ a.uuid = b.uuid))
      (addMember [⟨"lark", "u1", false, [], []⟩] ⟨"hark", "u2", false, [], []⟩) :=
  (c4_add_ordered_set [⟨"lark", "u1", false, [], []⟩] ⟨"hark", "u2", false, [], []⟩).2.2
    (by simp)

/-- Modelled from the spec: the null-collapse policy of `map` — the
ordered list of non-`None` results in member order if any call returned a
result, `None` if every call returned `None`. -/
def collapse {α : Type} (res : List (Option α)) : Option (List α) :=
  if res.all (fun r => r.isNone) then none else some (res.filterMap id)

/-- Modelled from the spec: `map(function, processes=1)` — sequential
application in member order, then the null-collapse. -/
def mapMembers {α : Type} (f : MemberRec → Option α) (c : List MemberRec) :
    Option (List α) :=
  collapse (c.map f)

/-- Modelled from the spec: `map(function, processes=2)` — the member
list is split across workers and the results are collected back in
original member order, then the null-collapse is applied identically. -/
def mapMembersPar {α : Type} (f : MemberRec → Option α) (c : List MemberRec) :
    Option (List α) :=
  collapse ((c.take (c.length / 2)).map f ++ (c.drop (c.length / 2)).map f)

/-- C6. The parallel path returns exactly the sequential result; every
call returning `None` collapses the whole result to `None` (not an empty
or all-`None` list), and otherwise the result is the ordered list of
non-`None` results in member order. -/
theorem c6_map_null_policy {α : Type} (f : MemberRec → Option α) (c : List MemberRec) :
    mapMembersPar f c = mapMembers f c
    ∧ ((∀ m ∈ c, f m = none) → mapMembers f c = none)
    ∧ ((∃ m ∈ c, f m ≠ none) → mapMembers f c = some ((c.map f).filterMap id)) := by
  refine ⟨?_, ?_, ?_⟩
  · rw [mapMembersPar, mapMembers, ← List.map_append, List.take_append_drop]
  · intro h
    rw [mapMembers, collapse, if_pos]
    rw [List.all_eq_true]
    intro r hr
    rw [List.mem_map] at hr
    obtain ⟨m, hm, rfl⟩ := hr
    rw [h m hm]
    rfl
  · rintro ⟨m, hm, hne⟩
    rw [mapMembers, collapse, if_neg]
    intro hall
    rw [List.all_eq_true] at hall
    have := hall (f m) (List.mem_map.mpr ⟨m, hm, rfl⟩)
    cases hfm : f m
    · exact hne hfm
    · rw [hfm] at this
      simp at this

/-- C6 witness: the theorem applied at a concrete two-member collection,
once with an always-`None` function (null collapse) and once with a
function returning names (full ordered result). -/
theorem c6_map_null_policy_witness :
    mapMembers (fun _ => (none : Option String))
      [⟨"lark", "u1", false, [], []⟩, ⟨"hark", "u2", false, [], []⟩] = none
    ∧ mapMembers (fun m => some (m.name ++ m.uuid))
      [⟨"lark", "u1", false, [], []⟩, ⟨"hark", "u2", false, [], []⟩] =
        some ["larku1", "harku2"] := by
  constructor
  · exact (c6_map_null_policy (fun _ => (none : Option String))
      [⟨"lark", "u1", false, [], []⟩, ⟨"hark", "u2", false, [], []⟩]).2.1
      (fun _ _ => rfl)
  · rw [(c6_map_null_policy (fun m => some (m.name ++ m.uuid))
      [⟨"lark", "u1", false, [], []⟩, ⟨"hark", "u2", false, [], []⟩]).2.2
      ⟨⟨"lark", "u1", false, [], []⟩, List.mem_cons_self _ _, by simp⟩]
    rfl

/-- Ascending insertion of a key by Python string `<`. -/
def insertKey (k : String) : List String → List String
  | [] => [k]
  | x :: xs => if strLtb x k then x :: insertKey k xs else k :: x :: xs

/-- Ascending sort of category keys by Python string `<`. The repository's
tests (test_collections.py lines 688-744) pin the groupby tuple order to
this sorted order for both list and set input. -/
def sortKeys : List String → List String
  | [] => []
  | k :: ks => insertKey k (sortKeys ks)

/-- Joint possession of all requested keys by one member. -/
def hasAllKeysb (keys : List String) (m : MemberRec) : Bool :=
  keys.all (fun k => hasKeyb m k)

/-- Modelled from the spec: the value-tuple under which a fully-keyed
member is grouped — its category values, one per requested key, in the
deterministic sorted key order observed in the repository's tests. -/
def tupleOf (keys : List String) (m : MemberRec) : List Value :=
  (sortKeys keys).filterMap (fun k => catLookup k m.cats)

/-- Appends a member to the group of its value-tuple, creating the group
at the end if the tuple is new. -/
def insertGroup (t : List Value) (m : MemberRec) :
    List (List Value × List MemberRec) → List (List Value × List MemberRec)
  | [] => [(t, [m])]
  | (t', g) :: rest =>
    if t' = t then (t', g ++ [m]) :: rest else (t', g) :: insertGroup t m rest

/-- Modelled from the spec: `AggCategories.groupby` (agglimbs.py is
absent from src/) — partitions the bound Collection's members into a
mapping from value-tuple to sub-collection of the members sharing that
exact combination; members lacking any requested key are excluded. -/
def groupby (c : List MemberRec) (keys : List String) :
    List (List Value × List MemberRec) :=
  c.foldl
    (fun acc m => if hasAllKeysb keys m then insertGroup (tupleOf keys m) m acc else acc)
    []

/-- Association lookup of a value-tuple in a groupby result. -/
def lookupGroup (gs : List (List Value × List MemberRec)) (t : List Value) :
    Option (List MemberRec) :=
  match gs with
  | [] => none
  | (t', g) :: rest => if t' = t then some g else lookupGroup rest t

theorem strLtb_trans_nlt {a b c : String} (h1 : strLtb a b = true)
    (h2 : strLtb c b = false) : strLtb a c = true := by
  rcases strLtb_total a c with h | ⟨h3, h | ⟨h4, h5⟩⟩
  · exact h
  · have := strLtb_trans h h1
    rw [h2] at this
    exact absurd this (by simp)
  · subst h5
    rw [h1] at h2
    exact absurd h2 (by simp)

theorem mem_insertKey {y k : String} : ∀ {l : List String}, y ∈ insertKey k l → y = k ∨ y ∈ l
  | [], h => by
    rw [insertKey, List.mem_singleton] at h
    exact Or.inl h
  | x :: xs, h => by
    rw [insertKey] at h
    by_cases hx : strLtb x k = true
    · rw [if_pos hx, List.mem_cons] at h
      rcases h with h | h
      · exact Or.inr (List.mem_cons.mpr (Or.inl h))
      · rcases mem_insertKey h with h' | h'
        · exact Or.inl h'
        · exact Or.inr (List.mem_cons.mpr (Or.inr h'))
    · rw [if_neg hx, List.mem_cons] at h
      rcases h with h | h
      · exact Or.inl h
      · exact Or.inr h

theorem pairwise_insertKey {k : String} : ∀ {l : List String},
    List.Pairwise (fun a b => strLtb b a = false) l →
    List.Pairwise (fun a b => strLtb b a = false) (insertKey k l)
  | [], _ => List.pairwise_singleton _ _
  | x :: xs, h => by
    rw [List.pairwise_cons] at h
    obtain ⟨hx, hxs⟩ := h
    rw [insertKey]
    cases hlt : strLtb x k
    · rw [if_neg (by simp), List.pairwise_cons]
      refine ⟨?_, List.pairwise_cons.mpr ⟨hx, hxs⟩⟩
      intro y hy
      rw [List.mem_cons] at hy
      rcases hy with rfl | hy
      · exact hlt
      · cases hyk : strLtb y k
        · rfl
        · have := strLtb_trans_nlt hyk hlt
          rw [hx y hy] at this
          exact absurd this (by simp)
    · rw [if_pos rfl, List.pairwise_cons]
      refine ⟨?_, pairwise_insertKey hxs⟩
      intro y hy
      rcases mem_insertKey hy with rfl | hy
      · exact strLtb_asymm hlt
      · exact hx y hy

theorem perm_insertKey (k : String) : ∀ l : List String, (insertKey k l).Perm (k :: l)
  | [] => List.Perm.refl _
  | x :: xs => by
    rw [insertKey]
    cases hlt : strLtb x k
    · rw [if_neg (by simp)]
    · rw [if_pos rfl]
      exact List.Perm.trans (List.Perm.cons x (perm_insertKey k xs)) (List.Perm.swap k x xs)

theorem perm_sortKeys : ∀ l : List String, (sortKeys l).Perm l
  | [] => List.Perm.refl _
  | k :: ks =>
    List.Perm.trans (perm_insertKey k (sortKeys ks)) (List.Perm.cons k (perm_sortKeys ks))

theorem pairwise_sortKeys : ∀ l : List String,
    List.Pairwise (fun a b => strLtb b a = false) (sortKeys l)
  | [] => List.Pairwise.nil
  | k :: ks => pairwise_insertKey (pairwise_sortKeys ks)

theorem sortKeys_eq_of_perm {l l' : List String} (h : l.Perm l') :
    sortKeys l = sortKeys l' := by
  haveI : IsAntisymm String (fun a b => strLtb b a = false) :=
    ⟨fun a b h1 h2 => strLtb_antisymm h2 h1⟩
  exact List.eq_of_perm_of_sorted
    (List.Perm.trans (perm_sortKeys l) (List.Perm.trans h (perm_sortKeys l').symm))
    (pairwise_sortKeys l) (pairwise_sortKeys l')

theorem all_eq_of_perm {α : Type} {l l' : List α} (p : α → Bool) (h : l.Perm l') :
    l.all p = l'.all p := by
  rw [Bool.eq_iff_iff, List.all_eq_true, List.all_eq_true]
  exact ⟨fun ha x hx => ha x (h.mem_iff.mpr hx), fun ha x hx => ha x (h.mem_iff.mp hx)⟩

/-- C1 counterexample. The claim says the positional order of values in
a result tuple follows the order of keys in the input list, so
`groupby(['type','health'])` would key the deciduous/poor member under
`('deciduous', 'poor')`. The tests pin the opposite: the tuple is in
sorted key order (`health` before `type`), so the member is keyed under
`('poor', 'deciduous')` and the claim's tuple is absent. Members below
are the `t3`/`t4` of `test_categories_groupby`. -/
theorem c1_groupby_input_order_cex :
    lookupGroup
      (groupby
        [⟨"t3", "u3", false, [], [("age", .s "old"), ("bark", .s "mossy"),
          ("type", .s "deciduous"), ("health", .s "poor")]⟩,
         ⟨"t4", "u4", false, [], [("age", .s "young"), ("bark", .s "mossy"),
          ("type", .s "deciduous"), ("health", .s "good")]⟩]
        ["type", "health"])
      [.s "deciduous", .s "poor"] = none
    ∧ lookupGroup
      (groupby
        [⟨"t3", "u3", false, [], [("age", .s "old"), ("bark", .s "mossy"),
          ("type", .s "deciduous"), ("health", .s "poor")]⟩,
         ⟨"t4", "u4", false, [], [("age", .s "young"), ("bark", .s "mossy"),
          ("type", .s "deciduous"), ("health", .s "good")]⟩]
        ["type", "health"])
      [.s "poor", .s "deciduous"] =
        some [⟨"t3", "u3", false, [], [("age", .s "old"), ("bark", .s "mossy"),
          ("type", .s "deciduous"), ("health", .s "poor")]⟩] := by
  constructor
  · rfl
  · rfl

/-- C1 (amended). The positional order of values inside each returned
value-tuple is the ascending sorted order of the requested keys, for
list input just as for set input; hence `groupby` is invariant under
permutation of the input key list, and repeated identical calls (and any
two orderings of the same keys) group identically. -/
theorem c1_groupby_sorted_order (c : List MemberRec) (keys keys' : List String)
    (hperm : keys.Perm keys') :
    groupby c keys = groupby c keys' := by
  have hsort : sortKeys keys = sortKeys keys' := sortKeys_eq_of_perm hperm
  have hf : (fun (acc : List (List Value × List MemberRec)) (m : MemberRec) =>
      if hasAllKeysb keys m then insertGroup (tupleOf keys m) m acc else acc) =
      (fun acc m =>
      if hasAllKeysb keys' m then insertGroup (tupleOf keys' m) m acc else acc) := by
    funext acc m
    rw [hasAllKeysb, hasAllKeysb, all_eq_of_perm _ hperm, tupleOf, tupleOf, hsort]
  rw [groupby, groupby, hf]

/-- C1 witness: the amended theorem applied to the concrete
`['type','health']` / `['health','type']` pair of the tests. -/
theorem c1_groupby_sorted_order_witness :
    groupby
      [⟨"t3", "u3", false, [], [("type", .s "deciduous"), ("health", .s "poor")]⟩]
      ["type", "health"] =
    groupby
      [⟨"t3", "u3", false, [], [("type", .s "deciduous"), ("health", .s "poor")]⟩]
      ["health", "type"] :=
  c1_groupby_sorted_order
    [⟨"t3", "u3", false, [], [("type", .s "deciduous"), ("health", .s "poor")]⟩]
    ["type", "health"] ["health", "type"] (List.Perm.swap _ _ _)

/-- Membership of a member somewhere among the groups of a groupby
accumulator. -/
def inGroups (x : MemberRec) (acc : List (List Value × List MemberRec)) : Prop :=
  ∃ p ∈ acc, x ∈ p.2

theorem inGroups_insertGroup {x m : MemberRec} {t : List Value} :
    ∀ {acc : List (List Value × List MemberRec)},
    inGroups x (insertGroup t m acc) → x = m ∨ inGroups x acc
  | [], h => by
    obtain ⟨p, hp, hx⟩ := h
    rw [insertGroup, List.mem_singleton] at hp
    subst hp
    rw [List.mem_singleton] at hx
    exact Or.inl hx
  | (t', g) :: rest, h => by
    obtain ⟨p, hp, hx⟩ := h
    rw [insertGroup] at hp
    by_cases ht : t' = t
    · rw [if_pos ht, List.mem_cons] at hp
      rcases hp with rfl | hp
      · rw [List.mem_append, List.mem_singleton] at hx
        rcases hx with hx | hx
        · exact Or.inr ⟨(t', g), List.mem_cons_self _ _, hx⟩
        · exact Or.inl hx
      · exact Or.inr ⟨p, List.mem_cons_of_mem _ hp, hx⟩
    · rw [if_neg ht, List.mem_cons] at hp
      rcases hp with rfl | hp
      · exact Or.inr ⟨(t', g), List.mem_cons_self _ _, hx⟩
      · rcases inGroups_insertGroup ⟨p, hp, hx⟩ with h' | ⟨q, hq, hxq⟩
        · exact Or.inl h'
        · exact Or.inr ⟨q, List.mem_cons_of_mem _ hq, hxq⟩

theorem inGroups_groupby_aux (keys : List String) (x : MemberRec) :
    ∀ (c : List MemberRec) (acc : List (List Value × List MemberRec)),
    (inGroups x acc → hasAllKeysb keys x = true) →
    inGroups x
      (c.foldl (fun acc m =>
        if hasAllKeysb keys m then insertGroup (tupleOf keys m) m acc else acc) acc) →
    hasAllKeysb keys x = true
  | [], acc, hacc, h => hacc h
  | m :: rest, acc, hacc, h => by
    rw [List.foldl_cons] at h
    cases hm : hasAllKeysb keys m
    · rw [hm] at h
      exact inGroups_groupby_aux keys x rest acc hacc (by simpa using h)
    · rw [hm] at h
      refine inGroups_groupby_aux keys x rest _ ?_ (by simpa using h)
      intro hin
      rcases inGroups_insertGroup hin with rfl | hin'
      · exact hm
      · exact hacc hin'

theorem lookupGroup_mem {t : List Value} {g : List MemberRec} {x : MemberRec} :
    ∀ {gs : List (List Value × List MemberRec)},
    lookupGroup gs t = some g → x ∈ g → inGroups x gs
  | [], h, _ => by
    rw [lookupGroup] at h
    exact absurd h (by simp)
  | (t', g') :: rest, h, hx => by
    rw [lookupGroup] at h
    by_cases ht : t' = t
    · rw [if_pos ht] at h
      injection h with h'
      exact ⟨(t', g'), List.mem_cons_self _ _, by rw [h']; exact hx⟩
    · rw [if_neg ht] at h
      obtain ⟨q, hq, hxq⟩ := lookupGroup_mem h hx
      exact ⟨q, List.mem_cons_of_mem _ hq, hxq⟩

theorem groupby_skip_all (keys : List String) :
    ∀ (c : List MemberRec) (acc : List (List Value × List MemberRec)),
    (∀ m' ∈ c, hasAllKeysb keys m' = false) →
    c.foldl (fun acc m =>
      if hasAllKeysb keys m then insertGroup (tupleOf keys m) m acc else acc) acc = acc
  | [], _, _ => rfl
  | m :: rest, acc, hall => by
    rw [List.foldl_cons, hall m (List.mem_cons_self _ _)]
    exact groupby_skip_all keys rest acc
      (fun m' hm' => hall m' (List.mem_cons_of_mem _ hm'))

/-- C8. A member lacking any one of the requested keys appears in no
group of the groupby result at all, and when no member jointly possesses
all the requested keys the result is the empty mapping. -/
theorem c8_partial_never_grouped (c : List MemberRec) (keys : List String) (m : MemberRec) :
    ((∃ k ∈ keys, hasKeyb m k = false) →
      ∀ t g, lookupGroup (groupby c keys) t = some g → m ∉ g)
    ∧ ((∀ m' ∈ c, ∃ k ∈ keys, hasKeyb m' k = false) → groupby c keys = []) := by
  have hlack : ∀ x : MemberRec, (∃ k ∈ keys, hasKeyb x k = false) →
      hasAllKeysb keys x = false := by
    intro x ⟨k, hk, hnk⟩
    cases hall : hasAllKeysb keys x
    · rfl
    · rw [hasAllKeysb, List.all_eq_true] at hall
      rw [hall k hk] at hnk
      exact absurd hnk (by simp)
  constructor
  · intro hex t g hlook hmem
    have : hasAllKeysb keys m = true :=
      inGroups_groupby_aux keys m c []
        (fun h => absurd h (by rintro ⟨p, hp, _⟩; simp at hp))
        (lookupGroup_mem hlook hmem)
    rw [hlack m hex] at this
    exact absurd this (by simp)
  · intro hall
    exact groupby_skip_all keys c [] (fun m' hm' => hlack m' (hall m' hm'))

/-- C8 witness: the theorem applied at the concrete `['health','nickname']`
grouping of the tests, where no member has both keys, so the result is
empty and the key-lacking member `t1` is in no group. -/
theorem c8_partial_never_grouped_witness :
    groupby
      [⟨"t1", "u1", false, [], [("health", .s "poor")]⟩,
       ⟨"t2", "u2", false, [], [("nickname", .s "redwood")]⟩]
      ["health", "nickname"] = [] :=
  (c8_partial_never_grouped
    [⟨"t1", "u1", false, [], [("health", .s "poor")]⟩,
     ⟨"t2", "u2", false, [], [("nickname", .s "redwood")]⟩]
    ["health", "nickname"] ⟨"t1", "u1", false, [], [("health", .s "poor")]⟩).2
    (by
      intro m' hm'
      rw [List.mem_cons, List.mem_singleton] at hm'
      rcases hm' with rfl | rfl
      · exact ⟨"nickname", by simp, rfl⟩
      · exact ⟨"health", by simp, rfl⟩)

/-- Lookup of a member record by uuid in the universe of state files on
disk (Groups reference their members by uuid through state files, so the
membership graph can contain cycles). -/
def findRec : List MemberRec → String → Option MemberRec
  | [], _ => none
  | r :: rest, u => if r.uuid = u then some r else findRec rest u

/-- Count of universe records whose uuid is not yet excluded — the
termination measure of the cycle-guarded traversal. -/
def unexcluded (univ : List MemberRec) (excl : List String) : Nat :=
  (univ.filter (fun r => decide (r.uuid ∉ excl))).length

theorem findRec_some : ∀ {univ : List MemberRec} {u : String} {r : MemberRec},
    findRec univ u = some r → r ∈ univ ∧ r.uuid = u
  | [], _, _, h => by
    rw [findRec] at h
    exact absurd h (by simp)
  | a :: rest, u, r, h => by
    rw [findRec] at h
    by_cases ha : a.uuid = u
    · rw [if_pos ha] at h
      injection h with h'
      subst h'
      exact ⟨List.mem_cons_self _ _, ha⟩
    · rw [if_neg ha] at h
      obtain ⟨h1, h2⟩ := findRec_some h
      exact ⟨List.mem_cons_of_mem _ h1, h2⟩

theorem length_filter_le_of_imp {α : Type} (l : List α) (p q : α → Bool)
    (himp : ∀ a, q a = true → p a = true) :
    (l.filter q).length ≤ (l.filter p).length := by
  induction l with
  | nil => simp
  | cons x rest ih =>
    rw [List.filter_cons, List.filter_cons]
    cases hq : q x
    · cases hp : p x
      · rw [if_neg (by simp), if_neg (by simp)]
        exact ih
      · rw [if_neg (by simp), if_pos rfl]
        exact Nat.le_succ_of_le ih
    · rw [himp x hq, if_pos rfl, if_pos rfl]
      simpa using ih

theorem length_filter_lt_of_imp {α : Type} (l : List α) (p q : α → Bool)
    (himp : ∀ a, q a = true → p a = true) (a : α) (ha : a ∈ l)
    (hpa : p a = true) (hqa : q a = false) :
    (l.filter q).length < (l.filter p).length := by
  induction l with
  | nil => simp at ha
  | cons x rest ih =>
    rw [List.filter_cons, List.filter_cons]
    rcases List.mem_cons.mp ha with rfl | hmem
    · rw [hpa, hqa, if_pos rfl, if_neg (by simp)]
      exact Nat.lt_succ_of_le (length_filter_le_of_imp rest p q himp)
    · cases hq : q x
      · cases hp : p x
        · rw [if_neg (by simp), if_neg (by simp)]
          exact ih hmem
        · rw [if_neg (by simp), if_pos rfl]
          exact Nat.lt_succ_of_lt (ih hmem)
      · rw [himp x hq, if_pos rfl, if_pos rfl]
        simpa using ih hmem

theorem unexcluded_cons_lt (univ : List MemberRec) (excl : List String) (u : String)
    (hr : ∃ r ∈ univ, r.uuid = u) (hne : u ∉ excl) :
    unexcluded univ (u :: excl) < unexcluded univ excl := by
  obtain ⟨r, hrm, hru⟩ := hr
  refine length_filter_lt_of_imp univ _ _ ?_ r hrm ?_ ?_
  · intro a ha
    rw [decide_eq_true_iff] at ha ⊢
    intro hmem
    exact ha (List.mem_cons_of_mem _ hmem)
  · rw [decide_eq_true_iff, hru]
    exact hne
  · rw [decide_eq_false_iff_not]
    intro hc
    rw [hru] at hc
    exact hc (List.mem_cons_self _ _)

/-- Modelled from the spec: the depth-first, cycle-guarded traversal
behind `flatten` (collections.py is absent from src/). Each top-level
uuid is resolved against the universe of state files; a Group not on the
current visited path expands into its members with itself added to the
guard, a Group already being visited (or explicitly excluded) is skipped
silently, and Treant leaves are emitted in traversal order. -/
def flattenAux (univ : List MemberRec) (excl : List String) (us : List String) :
    List MemberRec :=
  match us with
  | [] => []
  | u :: us' =>
    (match hfind : findRec univ u with
     | none => []
     | some r =>
       if r.isGroup then
         (if hex : u ∈ excl then [] else flattenAux univ (u :: excl) r.children)
       else [r]) ++ flattenAux univ excl us'
termination_by (unexcluded univ excl, us.length)
decreasing_by
  · exact Prod.Lex.left _ _ (unexcluded_cons_lt _ _ _
      ⟨_, (findRec_some hfind).1, (findRec_some hfind).2⟩ hex)
  · exact Prod.Lex.right _ (Nat.lt_succ_self _)

/-- Member-equality key used by Bundle deduplication (`Treant.__eq__`):
the `name + uuid` concatenation. -/
def keyOf (r : MemberRec) : String := r.name ++ r.uuid

/-- Incremental deduplication (first occurrence wins), as produced by
accumulating members into a Bundle whose `add` skips equal members. -/
def dedupKeyed : List MemberRec → List String → List MemberRec
  | [], _ => []
  | r :: rs, seen =>
    if keyOf r ∈ seen then dedupKeyed rs seen
    else r :: dedupKeyed rs (keyOf r :: seen)

/-- Modelled from the spec: `flatten(exclude)` — the cycle-guarded
traversal from the top-level members, deduplicated into a fresh
Collection. -/
def flatten (univ : List MemberRec) (excl : List String) (roots : List String) :
    List MemberRec :=
  dedupKeyed (flattenAux univ excl roots) []

/-- Walks through the membership graph: a chain of uuids stepping from a
Group to one of its children, ending at a non-Group leaf record. -/
inductive WalkTo (univ : List MemberRec) : List String → MemberRec → Prop
  | leaf {u : String} {r : MemberRec} :
      findRec univ u = some r → r.isGroup = false → WalkTo univ [u] r
  | step {u c : String} {g r : MemberRec} {p : List String} :
      findRec univ u = some g → g.isGroup = true → c ∈ g.children →
      WalkTo univ (c :: p) r → WalkTo univ (u :: c :: p) r

/-- Reachability of a Treant leaf from a top-level uuid. -/
def Reach (univ : List MemberRec) (u : String) (r : MemberRec) : Prop :=
  ∃ p, WalkTo univ (u :: p) r

theorem flattenAux_nil (univ : List MemberRec) (excl : List String) :
    flattenAux univ excl [] = [] := by
  rw [flattenAux]

theorem flattenAux_cons_none {univ : List MemberRec} {u : String}
    (excl : List String) (us : List String) (h : findRec univ u = none) :
    flattenAux univ excl (u :: us) = flattenAux univ excl us := by
  rw [flattenAux]
  split
  · simp
  · rename_i r heq
    rw [h] at heq
    simp at heq

theorem flattenAux_cons_leaf {univ : List MemberRec} {u : String} {r : MemberRec}
    (excl : List String) (us : List String) (h : findRec univ u = some r)
    (hg : r.isGroup = false) :
    flattenAux univ excl (u :: us) = r :: flattenAux univ excl us := by
  rw [flattenAux]
  split
  · rename_i heq
    rw [h] at heq
    simp at heq
  · rename_i r' heq
    rw [h] at heq
    injection heq with heq'
    subst heq'
    rw [if_neg (by rw [hg]; simp)]
    simp

theorem flattenAux_cons_group_excl {univ : List MemberRec} {u : String} {r : MemberRec}
    {excl : List String} (us : List String) (h : findRec univ u = some r)
    (hg : r.isGroup = true) (hex : u ∈ excl) :
    flattenAux univ excl (u :: us) = flattenAux univ excl us := by
  rw [flattenAux]
  split
  · rename_i heq
    rw [h] at heq
    simp at heq
  · rename_i r' heq
    rw [h] at heq
    injection heq with heq'
    subst heq'
    rw [if_pos hg, dif_pos hex]
    simp

theorem flattenAux_cons_group {univ : List MemberRec} {u : String} {r : MemberRec}
    {excl : List String} (us : List String) (h : findRec univ u = some r)
    (hg : r.isGroup = true) (hex : u ∉ excl) :
    flattenAux univ excl (u :: us) =
      flattenAux univ (u :: excl) r.children ++ flattenAux univ excl us := by
  rw [flattenAux]
  split
  · rename_i heq
    rw [h] at heq
    simp at heq
  · rename_i r' heq
    rw [h] at heq
    injection heq with heq'
    subst heq'
    rw [if_pos hg, dif_neg hex]

theorem flattenAux_append (univ : List MemberRec) (excl : List String) :
    ∀ us1 us2 : List String,
    flattenAux univ excl (us1 ++ us2) =
      flattenAux univ excl us1 ++ flattenAux univ excl us2
  | [], us2 => by rw [List.nil_append, flattenAux_nil, List.nil_append]
  | u :: us1', us2 => by
    cases hfind : findRec univ u with
    | none =>
      rw [List.cons_append, flattenAux_cons_none _ _ hfind, flattenAux_cons_none _ _ hfind]
      exact flattenAux_append univ excl us1' us2
    | some r =>
      cases hg : r.isGroup with
      | false =>
        rw [List.cons_append, flattenAux_cons_leaf _ _ hfind hg,
          flattenAux_cons_leaf _ _ hfind hg, flattenAux_append univ excl us1' us2,
          List.cons_append]
      | true =>
        by_cases hex : u ∈ excl
        · rw [List.cons_append, flattenAux_cons_group_excl _ hfind hg hex,
            flattenAux_cons_group_excl _ hfind hg hex]
          exact flattenAux_append univ excl us1' us2
        · rw [List.cons_append, flattenAux_cons_group _ hfind hg hex,
            flattenAux_cons_group _ hfind hg hex,
            flattenAux_append univ excl us1' us2, List.append_assoc]

theorem flattenAux_sub (univ : List MemberRec) (excl us : List String) :
    ∀ x ∈ flattenAux univ excl us, x ∈ univ := by
  induction excl, us using flattenAux.induct univ with
  | case1 excl =>
    intro x hx
    rw [flattenAux_nil] at hx
    simp at hx
  | case2 excl u us' ih1 ih2 =>
    intro x hx
    cases hfind : findRec univ u with
    | none =>
      rw [flattenAux_cons_none _ _ hfind] at hx
      exact ih2 x hx
    | some r =>
      cases hg : r.isGroup with
      | false =>
        rw [flattenAux_cons_leaf _ _ hfind hg] at hx
        rcases List.mem_cons.mp hx with rfl | hx'
        · exact (findRec_some hfind).1
        · exact ih2 x hx'
      | true =>
        by_cases hex : u ∈ excl
        · rw [flattenAux_cons_group_excl _ hfind hg hex] at hx
          exact ih2 x hx
        · rw [flattenAux_cons_group _ hfind hg hex] at hx
          rcases List.mem_append.mp hx with hx' | hx'
          · exact ih1 r hfind hex x hx'
          · exact ih2 x hx'

theorem flattenAux_sound (univ : List MemberRec) (excl us : List String) :
    ∀ x ∈ flattenAux univ excl us, x.isGroup = false ∧ ∃ u ∈ us, Reach univ u x := by
  induction excl, us using flattenAux.induct univ with
  | case1 excl =>
    intro x hx
    rw [flattenAux_nil] at hx
    simp at hx
  | case2 excl u us' ih1 ih2 =>
    intro x hx
    cases hfind : findRec univ u with
    | none =>
      rw [flattenAux_cons_none _ _ hfind] at hx
      obtain ⟨hng, u', hu', hr⟩ := ih2 x hx
      exact ⟨hng, u', List.mem_cons_of_mem _ hu', hr⟩
    | some r =>
      cases hg : r.isGroup with
      | false =>
        rw [flattenAux_cons_leaf _ _ hfind hg] at hx
        rcases List.mem_cons.mp hx with rfl | hx'
        · exact ⟨hg, u, List.mem_cons_self _ _, ⟨[], WalkTo.leaf hfind hg⟩⟩
        · obtain ⟨hng, u', hu', hr⟩ := ih2 x hx'
          exact ⟨hng, u', List.mem_cons_of_mem _ hu', hr⟩
      | true =>
        by_cases hex : u ∈ excl
        · rw [flattenAux_cons_group_excl _ hfind hg hex] at hx
          obtain ⟨hng, u', hu', hr⟩ := ih2 x hx
          exact ⟨hng, u', List.mem_cons_of_mem _ hu', hr⟩
        · rw [flattenAux_cons_group _ hfind hg hex] at hx
          rcases List.mem_append.mp hx with hx' | hx'
          · obtain ⟨hng, c, hc, p, hw⟩ := ih1 r hfind hex x hx'
            exact ⟨hng, u, List.mem_cons_self _ _, ⟨c :: p, WalkTo.step hfind hg hc hw⟩⟩
          · obtain ⟨hng, u', hu', hr⟩ := ih2 x hx'
            exact ⟨hng, u', List.mem_cons_of_mem _ hu', hr⟩

theorem walk_suffix {univ : List MemberRec} {r : MemberRec} {q : List String}
    (hw : WalkTo univ q r) :
    ∀ {u : String}, u ∈ q →
    ∃ q', WalkTo univ (u :: q') r ∧ (u :: q').length ≤ q.length ∧ ∀ x ∈ u :: q', x ∈ q := by
  induction hw with
  | @leaf u0 r0 hfind hng =>
    intro u hu
    rw [List.mem_singleton] at hu
    subst hu
    exact ⟨[], WalkTo.leaf hfind hng, le_refl _, fun x hx => hx⟩
  | @step u0 c g r0 p hfind hg hc hsub ih =>
    intro u hu
    rcases List.mem_cons.mp hu with rfl | hu'
    · exact ⟨c :: p, WalkTo.step hfind hg hc hsub, le_refl _, fun x hx => hx⟩
    · obtain ⟨q', hw', hlen, hsubset⟩ := ih hu'
      exact ⟨q', hw', le_trans hlen (by simp),
        fun x hx => List.mem_cons_of_mem _ (hsubset x hx)⟩

theorem mem_flattenAux_of_child {univ : List MemberRec} {e : List String} {r : MemberRec}
    {c : String} (h : r ∈ flattenAux univ e [c]) :
    ∀ {cs : List String}, c ∈ cs → r ∈ flattenAux univ e cs := by
  intro cs hc
  obtain ⟨s, t, rfl⟩ := List.append_of_mem hc
  rw [flattenAux_append, List.mem_append]
  right
  rw [show c :: t = [c] ++ t from rfl, flattenAux_append, List.mem_append]
  left
  exact h

theorem walk_mem_flattenAux (univ : List MemberRec) :
    ∀ (n : Nat) (p : List String) (u : String) (excl : List String) (r : MemberRec),
    WalkTo univ (u :: p) r → (u :: p).length ≤ n → (∀ x ∈ u :: p, x ∉ excl) →
    r ∈ flattenAux univ excl [u] := by
  intro n
  induction n with
  | zero =>
    intro p u excl r hw hlen havoid
    simp at hlen
  | succ n ih =>
    intro p u excl r hw hlen havoid
    cases hw with
    | leaf hfind hng =>
      rw [flattenAux_cons_leaf _ _ hfind hng]
      exact List.mem_cons_self _ _
    | @step _ c g _ p' hfind hg hsubmem hsub =>
      by_cases hmem : u ∈ c :: p'
      · obtain ⟨q', hw', hlen', hsubset⟩ := walk_suffix hsub hmem
        apply ih q' u excl r hw'
        · exact le_trans hlen' (Nat.le_of_succ_le_succ hlen)
        · intro x hx
          exact havoid x (List.mem_cons_of_mem _ (hsubset x hx))
      · have hunotin : u ∉ excl := havoid u (List.mem_cons_self _ _)
        rw [flattenAux_cons_group _ hfind hg hunotin, flattenAux_nil, List.append_nil]
        have hchild : r ∈ flattenAux univ (u :: excl) [c] := by
          apply ih p' c (u :: excl) r hsub (Nat.le_of_succ_le_succ hlen)
          intro x hx
          rw [List.mem_cons]
          rintro (rfl | hxe)
          · exact hmem hx
          · exact havoid x (List.mem_cons_of_mem _ hx) hxe
        exact mem_flattenAux_of_child hchild hsubmem

theorem mem_dedupKeyed_sub : ∀ {l : List MemberRec} {seen : List String} {x : MemberRec},
    x ∈ dedupKeyed l seen → x ∈ l
  | [], seen, x, h => by
    rw [dedupKeyed] at h
    simp at h
  | r :: rs, seen, x, h => by
    rw [dedupKeyed] at h
    by_cases hk : keyOf r ∈ seen
    · rw [if_pos hk] at h
      exact List.mem_cons_of_mem _ (mem_dedupKeyed_sub h)
    · rw [if_neg hk] at h
      rcases List.mem_cons.mp h with rfl | h'
      · exact List.mem_cons_self _ _
      · exact List.mem_cons_of_mem _ (mem_dedupKeyed_sub h')

theorem dedupKeyed_keys : ∀ (l : List MemberRec) (seen : List String),
    ((dedupKeyed l seen).map keyOf).Nodup ∧ ∀ x ∈ dedupKeyed l seen, keyOf x ∉ seen
  | [], seen => by
    rw [dedupKeyed]
    exact ⟨List.nodup_nil, by simp⟩
  | r :: rs, seen => by
    rw [dedupKeyed]
    by_cases hk : keyOf r ∈ seen
    · rw [if_pos hk]
      exact dedupKeyed_keys rs seen
    · rw [if_neg hk]
      obtain ⟨hnodup, hnot⟩ := dedupKeyed_keys rs (keyOf r :: seen)
      refine ⟨?_, ?_⟩
      · rw [List.map_cons, List.nodup_cons]
        refine ⟨?_, hnodup⟩
        intro hmem
        rw [List.mem_map] at hmem
        obtain ⟨y, hy, hkey⟩ := hmem
        exact (hnot y hy) (by rw [hkey]; exact List.mem_cons_self _ _)
      · intro x hx
        rcases List.mem_cons.mp hx with rfl | hx'
        · exact hk
        · intro hxs
          exact hnot x hx' (List.mem_cons_of_mem _ hxs)

theorem mem_dedupKeyed {x : MemberRec} : ∀ {l : List MemberRec} {seen : List String},
    (∀ a ∈ l, ∀ b ∈ l, keyOf a = keyOf b → a = b) →
    (x ∈ dedupKeyed l seen ↔ x ∈ l ∧ keyOf x ∉ seen)
  | [], seen, _ => by
    rw [dedupKeyed]
    simp
  | r :: rs, seen, hinj => by
    have hinj' : ∀ a ∈ rs, ∀ b ∈ rs, keyOf a = keyOf b → a = b := by
      intro a ha b hb
      exact hinj a (List.mem_cons_of_mem _ ha) b (List.mem_cons_of_mem _ hb)
    rw [dedupKeyed]
    by_cases hk : keyOf r ∈ seen
    · rw [if_pos hk, mem_dedupKeyed hinj']
      constructor
      · rintro ⟨h1, h2⟩
        exact ⟨List.mem_cons_of_mem _ h1, h2⟩
      · rintro ⟨h1, h2⟩
        rcases List.mem_cons.mp h1 with rfl | h1'
        · exact absurd hk h2
        · exact ⟨h1', h2⟩
    · rw [if_neg hk]
      constructor
      · intro h
        rcases List.mem_cons.mp h with rfl | h'
        · exact ⟨List.mem_cons_self _ _, hk⟩
        · obtain ⟨h1, h2⟩ := (mem_dedupKeyed hinj').mp h'
          refine ⟨List.mem_cons_of_mem _ h1, ?_⟩
          intro hc
          exact h2 (List.mem_cons_of_mem _ hc)
      · rintro ⟨h1, h2⟩
        rcases List.mem_cons.mp h1 with rfl | h1'
        · exact List.mem_cons_self _ _
        · by_cases hkey : keyOf x = keyOf r
          · have : x = r := hinj x (List.mem_cons_of_mem _ h1') r (List.mem_cons_self _ _) hkey
            rw [this]
            exact List.mem_cons_self _ _
          · apply List.mem_cons_of_mem
            rw [mem_dedupKeyed hinj']
            refine ⟨h1', ?_⟩
            intro hc
            rcases List.mem_cons.mp hc with hc' | hc'
            · exact hkey hc'
            · exact h2 hc'

/-- Well-formedness of the on-disk universe: uuids identify state files
uniquely (so a uuid determines its record), and the `name + uuid`
deduplication key also identifies records (true of real uuid4 state
files, whose uuids all have length 36). -/
def WFuniv (univ : List MemberRec) : Prop :=
  ∀ a ∈ univ, ∀ b ∈ univ, (a.uuid = b.uuid → a = b) ∧ (keyOf a = keyOf b → a = b)

/-- C2. On any universe of state files — including one where a Group
contains itself directly or transitively — `flatten()` (the traversal is
a total function, so it terminates) returns a Collection with no
Group-members, with no duplicate uuid, and containing exactly the Treant
leaves reachable from the top-level members, no matter how many paths
reach them. -/
theorem c2_flatten_cycle_safe (univ : List MemberRec) (roots : List String)
    (hwf : WFuniv univ) :
    (∀ x ∈ flatten univ [] roots, x.isGroup = false)
    ∧ ((flatten univ [] roots).map MemberRec.uuid).Nodup
    ∧ (∀ x, x ∈ flatten univ [] roots ↔
        x.isGroup = false ∧ ∃ u ∈ roots, Reach univ u x) := by
  have hinj : ∀ a ∈ flattenAux univ [] roots, ∀ b ∈ flattenAux univ [] roots,
      keyOf a = keyOf b → a = b := by
    intro a ha b hb
    exact (hwf a (flattenAux_sub univ [] roots a ha) b (flattenAux_sub univ [] roots b hb)).2
  have hmemiff : ∀ x : MemberRec, x ∈ flatten univ [] roots ↔
      x ∈ flattenAux univ [] roots := by
    intro x
    rw [flatten, mem_dedupKeyed hinj]
    simp
  refine ⟨?_, ?_, ?_⟩
  · intro x hx
    exact (flattenAux_sound univ [] roots x ((hmemiff x).mp hx)).1
  · have hkeys := (dedupKeyed_keys (flattenAux univ [] roots) []).1
    have hrec : (flatten univ [] roots).Nodup := hkeys.of_map
    refine List.Nodup.map_on ?_ hrec
    intro a ha b hb huuid
    have ha' := flattenAux_sub univ [] roots a ((hmemiff a).mp ha)
    have hb' := flattenAux_sub univ [] roots b ((hmemiff b).mp hb)
    exact (hwf a ha' b hb').1 huuid
  · intro x
    rw [hmemiff x]
    constructor
    · intro hx
      exact flattenAux_sound univ [] roots x hx
    · rintro ⟨hng, u, hu, p, hw⟩
      have hx : x ∈ flattenAux univ [] [u] :=
        walk_mem_flattenAux univ (u :: p).length p u [] x hw (le_refl _) (by simp)
      exact mem_flattenAux_of_child hx hu

/-- Universe of the `test_flatten` scenario: Group `bork` has itself and
the Treants `lark`, `mark`, `bark` as members. -/
def borkUniv : List MemberRec :=
  [⟨"bork", "ub", true, ["ub", "ul", "um", "uk"], []⟩,
   ⟨"lark", "ul", false, [], []⟩,
   ⟨"mark", "um", false, [], []⟩,
   ⟨"bark", "uk", false, [], []⟩]

/-- C2 witness: the theorem applied to the self-containing `bork` Group
of the tests, discharging the well-formedness hypothesis. -/
theorem c2_flatten_cycle_safe_witness :
    (∀ x ∈ flatten borkUniv [] ["ub"], x.isGroup = false)
    ∧ ((flatten borkUniv [] ["ub"]).map MemberRec.uuid).Nodup
    ∧ (∀ x, x ∈ flatten borkUniv [] ["ub"] ↔
        x.isGroup = false ∧ ∃ u ∈ ["ub"], Reach borkUniv u x) :=
  c2_flatten_cycle_safe borkUniv ["ub"] (by unfold WFuniv; decide)

end Datreant
